import Mathlib

/-!
# Verification of the sophia in-memory RDF store

Shallow embedding of the core of the `sophia` crate:
* the `Dataset` trait defaults of `src/dataset/_traits.rs`
  (full scans, per-position scans, the `quads_matching` dispatcher,
  `contains`, `predicates`, `graph_names`, `insert_all`/`remove_all`),
  instantiated at the list-of-quads backend;
* the streaming drain of `src/quad/stream.rs`;
* the reference-counting term dictionary `TermIndexU`
  of `src/graph/inmem/term_index_u.rs`;
* the indexed triple store `HashGraph`
  of `src/graph/inmem/_hash_graph.rs`.
-/

namespace Sophia

/-- RDF term (`Term` enum of `sophia_term`): IRI, blank node,
literal with language tag or with datatype, or variable.
Equality is structural; the core treats terms as opaque comparable values. -/
inductive Term where
  | iri (value : String)
  | bnode (name : String)
  | literalLang (lex lang : String)
  | literalDT (lex dt : String)
  | var (name : String)
deriving DecidableEq, Repr

/-- A graph name is `Option<Term>`; `none` denotes the default graph. -/
abbrev GraphName := Option Term

/-- A quad: subject, predicate, object, graph name. -/
structure Quad where
  s : Term
  p : Term
  o : Term
  g : GraphName
deriving DecidableEq, Repr

/-- Modelled from the spec: `same_graph_name` from the `quad` module
(not under `src/`): Option-aware comparison, two graph names are equal iff
both are the default graph, or both name equal terms. -/
def same_graph_name (g1 g2 : GraphName) : Bool :=
  g1 == g2

/-! ## Dataset trait defaults (`src/dataset/_traits.rs`)

The backend is the foreign impl for a collection of quads: the dataset is a
`List Quad` and `quads` yields it in order. All other methods below are the
trait's default implementations, translated clause by clause. -/

/-- `Dataset::quads`: full scan. -/
def quads (d : List Quad) : List Quad := d

/-- `Dataset::quads_with_s`. -/
def quads_with_s (d : List Quad) (s : Term) : List Quad :=
  (quads d).filter (fun q => q.s == s)

/-- `Dataset::quads_with_p`. -/
def quads_with_p (d : List Quad) (p : Term) : List Quad :=
  (quads d).filter (fun q => q.p == p)

/-- `Dataset::quads_with_o`. -/
def quads_with_o (d : List Quad) (o : Term) : List Quad :=
  (quads d).filter (fun q => q.o == o)

/-- `Dataset::quads_with_g`. -/
def quads_with_g (d : List Quad) (g : GraphName) : List Quad :=
  (quads d).filter (fun q => same_graph_name q.g g)

/-- `Dataset::quads_with_sp`: chains `quads_with_s` with a filter on p. -/
def quads_with_sp (d : List Quad) (s p : Term) : List Quad :=
  (quads_with_s d s).filter (fun q => q.p == p)

/-- `Dataset::quads_with_so`. -/
def quads_with_so (d : List Quad) (s o : Term) : List Quad :=
  (quads_with_s d s).filter (fun q => q.o == o)

/-- `Dataset::quads_with_sg`: chains `quads_with_g` with a filter on s. -/
def quads_with_sg (d : List Quad) (s : Term) (g : GraphName) : List Quad :=
  (quads_with_g d g).filter (fun q => q.s == s)

/-- `Dataset::quads_with_po`. -/
def quads_with_po (d : List Quad) (p o : Term) : List Quad :=
  (quads_with_p d p).filter (fun q => q.o == o)

/-- `Dataset::quads_with_pg`. -/
def quads_with_pg (d : List Quad) (p : Term) (g : GraphName) : List Quad :=
  (quads_with_g d g).filter (fun q => q.p == p)

/-- `Dataset::quads_with_og`. -/
def quads_with_og (d : List Quad) (o : Term) (g : GraphName) : List Quad :=
  (quads_with_g d g).filter (fun q => q.o == o)

/-- `Dataset::quads_with_spo`. -/
def quads_with_spo (d : List Quad) (s p o : Term) : List Quad :=
  (quads_with_sp d s p).filter (fun q => q.o == o)

/-- `Dataset::quads_with_spg`. -/
def quads_with_spg (d : List Quad) (s p : Term) (g : GraphName) : List Quad :=
  (quads_with_sg d s g).filter (fun q => q.p == p)

/-- `Dataset::quads_with_sog`. -/
def quads_with_sog (d : List Quad) (s o : Term) (g : GraphName) : List Quad :=
  (quads_with_sg d s g).filter (fun q => q.o == o)

/-- `Dataset::quads_with_pog`. -/
def quads_with_pog (d : List Quad) (p o : Term) (g : GraphName) : List Quad :=
  (quads_with_pg d p g).filter (fun q => q.o == o)

/-- `Dataset::quads_with_spog`. -/
def quads_with_spog (d : List Quad) (s p o : Term) (g : GraphName) : List Quad :=
  (quads_with_spg d s p g).filter (fun q => q.o == o)

/-- `Dataset::contains`: the fully-bound plan yields at least one quad.
(The list backend is infallible, so the `Some(Err)` arm cannot arise.) -/
def contains (d : List Quad) (s p o : Term) (g : GraphName) : Bool :=
  match quads_with_spog d s p o g with
  | [] => false
  | _ :: _ => true

/-- Modelled from the spec: a term matcher (`sophia_term::matcher`, not under
`src/`) exposes `matches` and an optional `constant()` fast path. -/
structure TermMatcher where
  matchFn : Term → Bool
  const : Option Term

/-- Modelled from the spec: a graph-name matcher additionally distinguishes
"any graph" (no constant), "default graph only" (`some none`) and a
specific named graph (`some (some t)`). -/
structure GraphNameMatcher where
  matchFn : GraphName → Bool
  const : Option GraphName

/-- Modelled from the spec: the matcher contract of §6 — a matcher that
declares a constant matches exactly the terms equal to that constant. -/
def TermMatcher.lawful (m : TermMatcher) : Prop :=
  ∀ c, m.const = some c → ∀ t, m.matchFn t = (t == c)

/-- Modelled from the spec: graph-name matcher contract — a declared constant
graph name is matched by exactly the graph names equal to it. -/
def GraphNameMatcher.lawful (m : GraphNameMatcher) : Prop :=
  ∀ c, m.const = some c → ∀ x, m.matchFn x = same_graph_name x c

/-- `Dataset::quads_matching`: dispatch on which positions have a constant
matcher (all 16 combinations), choosing the corresponding scan primitive and
filtering in memory by the remaining matchers. -/
def quads_matching (d : List Quad) (ms mp mo : TermMatcher)
    (mg : GraphNameMatcher) : List Quad :=
  match ms.const, mp.const, mo.const, mg.const with
  | none, none, none, none =>
    (quads d).filter (fun q =>
      ms.matchFn q.s && mp.matchFn q.p && mo.matchFn q.o && mg.matchFn q.g)
  | some s, none, none, none =>
    (quads_with_s d s).filter (fun q =>
      mp.matchFn q.p && mo.matchFn q.o && mg.matchFn q.g)
  | none, some p, none, none =>
    (quads_with_p d p).filter (fun q =>
      ms.matchFn q.s && mo.matchFn q.o && mg.matchFn q.g)
  | none, none, some o, none =>
    (quads_with_o d o).filter (fun q =>
      ms.matchFn q.s && mp.matchFn q.p && mg.matchFn q.g)
  | none, none, none, some g =>
    (quads_with_g d g).filter (fun q =>
      ms.matchFn q.s && mp.matchFn q.p && mo.matchFn q.o)
  | some s, some p, none, none =>
    (quads_with_sp d s p).filter (fun q => mo.matchFn q.o && mg.matchFn q.g)
  | some s, none, some o, none =>
    (quads_with_so d s o).filter (fun q => mp.matchFn q.p && mg.matchFn q.g)
  | some s, none, none, some g =>
    (quads_with_sg d s g).filter (fun q => mp.matchFn q.p && mo.matchFn q.o)
  | none, some p, some o, none =>
    (quads_with_po d p o).filter (fun q => ms.matchFn q.s && mg.matchFn q.g)
  | none, some p, none, some g =>
    (quads_with_pg d p g).filter (fun q => ms.matchFn q.s && mo.matchFn q.o)
  | none, none, some o, some g =>
    (quads_with_og d o g).filter (fun q => ms.matchFn q.s && mp.matchFn q.p)
  | some s, some p, some o, none =>
    (quads_with_spo d s p o).filter (fun q => mg.matchFn q.g)
  | some s, some p, none, some g =>
    (quads_with_spg d s p g).filter (fun q => mo.matchFn q.o)
  | some s, none, some o, some g =>
    (quads_with_sog d s o g).filter (fun q => mp.matchFn q.p)
  | none, some p, some o, some g =>
    (quads_with_pog d p o g).filter (fun q => ms.matchFn q.s)
  | some s, some p, some o, some g =>
    quads_with_spog d s p o g

/-- Modelled from the spec: `insert_if_absent` from the `graph` module
(not under `src/`): add the value to the accumulated set if absent. -/
def insert_if_absent (res : List Term) (t : Term) : List Term :=
  if t ∈ res then res else t :: res

/-- `Dataset::predicates`: collect the distinct predicate terms. -/
def predicates (d : List Quad) : List Term :=
  (quads d).foldl (fun res q => insert_if_absent res q.p) []

/-- `Dataset::graph_names`: collect the distinct named-graph names
(the default graph contributes nothing). -/
def graph_names (d : List Quad) : List Term :=
  (quads d).foldl
    (fun res q =>
      match q.g with
      | some name => insert_if_absent res name
      | none => res)
    []

/-! ## Streaming protocol (`src/quad/stream.rs`)

`StreamError` distinguishes the two failure domains of a drain. A quad
source is modelled as the list of items an iterator-backed source yields:
each item is either a quad or a source-domain error. -/

/-- `StreamError`: source-domain vs sink-domain failure. -/
inductive StreamError (E1 E2 : Type) where
  | sourceErr : E1 → StreamError E1 E2
  | sinkErr : E2 → StreamError E1 E2
deriving DecidableEq, Repr

/-- The drain loop of `MutableDataset::insert_all` / `remove_all`:
`try_for_each_quad` repeatedly pulls one item from the iterator-backed
source and feeds it to the counting closure built around the store's
per-quad mutation `ins`. Modelled from the spec for the part not under
`src/`: the iterator adapter's `try_for_some_quad` produces the next item
or signals exhaustion. The accumulator `c` counts the quads whose mutation
reported a change. -/
def drainAllGo {D E1 E2 : Type} (ins : D → Quad → Except E2 (D × Bool)) :
    D → Nat → List (Except E1 Quad) → D × Except (StreamError E1 E2) Nat
  | d, c, [] => (d, Except.ok c)
  | d, _, Except.error e :: _ => (d, Except.error (StreamError.sourceErr e))
  | d, c, Except.ok q :: rest =>
    match ins d q with
    | Except.error e => (d, Except.error (StreamError.sinkErr e))
    | Except.ok (d', b) => drainAllGo ins d' (if b then c + 1 else c) rest

/-- `MutableDataset::insert_all` (and, with the per-quad removal supplied
as `ins`, `MutableDataset::remove_all`): fold the source through the
per-quad mutation, counting the changing ones, stopping on the first
source or mutation failure. Returns the final store next to the result. -/
def insert_all {D E1 E2 : Type} (ins : D → Quad → Except E2 (D × Bool))
    (d : D) (src : List (Except E1 Quad)) :
    D × Except (StreamError E1 E2) Nat :=
  drainAllGo ins d 0 src

/-- Reference semantics for a run of successful per-quad mutations: the
final store and the number of quads whose mutation reported a change. -/
def processAll {D E2 : Type} (ins : D → Quad → Except E2 (D × Bool)) :
    D → List Quad → Except E2 (D × Nat)
  | d, [] => Except.ok (d, 0)
  | d, q :: rest =>
    match ins d q with
    | Except.error e => Except.error e
    | Except.ok (d', b) =>
      (processAll ins d' rest).map (fun r => (r.1, (if b then 1 else 0) + r.2))

/-! ## The term dictionary (`src/graph/inmem/term_index_u.rs`)

`TermIndexU` is embedded with `Nat` indices (the `u16`/`u32` width is a
capacity trade-off, not a semantic difference). The `HashMap` reverse map
`t2i` is an association list; `i2t`/`i2c` are the forward `Vec`s. The term
factory's `copy` preserves term equality and is modelled as the identity. -/

/-- Lookup in the association list modelling the `t2i` `HashMap`. -/
def alookup (m : List (Term × Nat)) (t : Term) : Option Nat :=
  match m with
  | [] => none
  | (k, v) :: rest => if k = t then some v else alookup rest t

/-- Key removal in the association list (`HashMap::remove`). -/
def aremove (m : List (Term × Nat)) (t : Term) : List (Term × Nat) :=
  m.filter (fun kv => kv.1 ≠ t)

/-- Key insertion in the association list (`HashMap::insert`). -/
def ainsert (m : List (Term × Nat)) (t : Term) (i : Nat) : List (Term × Nat) :=
  (t, i) :: aremove m t

/-- The `TermIndexU` dictionary: `next_free` heads the free list threaded
through `i2c`, `i2t` maps indices to live terms (`none` = free slot),
`i2c` holds the refcount of a live slot or the next free slot of a free
one, `t2i` is the reverse map over the live slots. -/
structure TermIndexU where
  next_free : Nat
  i2t : List (Option Term)
  i2c : List Nat
  t2i : List (Term × Nat)
deriving DecidableEq, Repr

/-- The empty dictionary (`TermIndexU::default`). -/
def TermIndexU.empty : TermIndexU := ⟨0, [], [], []⟩

/-- Total read of `i2c` (in-range under well-formedness). -/
def cget (l : List Nat) (i : Nat) : Nat := (l[i]?).getD 0

/-- `TermIndex::get_index`: read-only reverse-map lookup. -/
def get_index (d : TermIndexU) (t : Term) : Option Nat :=
  alookup d.t2i t

/-- `TermIndex::get_term`: forward lookup, `none` for free or unknown. -/
def get_term (d : TermIndexU) (i : Nat) : Option Term :=
  (d.i2t[i]?).bind id

/-- `TermIndex::make_index`: return the existing index with its refcount
bumped, or allocate — reusing the free-list head when the forward array
has a hole, appending otherwise. -/
def make_index (d : TermIndexU) (t : Term) : Nat × TermIndexU :=
  match alookup d.t2i t with
  | some i => (i, { d with i2c := d.i2c.set i (cget d.i2c i + 1) })
  | none =>
    let m := ainsert d.t2i t d.next_free
    let i := d.next_free
    if i = d.i2t.length then
      (i, { next_free := i + 1, i2t := d.i2t ++ [some t],
            i2c := d.i2c ++ [1], t2i := m })
    else
      (i, { next_free := cget d.i2c i, i2t := d.i2t.set i (some t),
            i2c := d.i2c.set i 1, t2i := m })

/-- `TermIndex::inc_ref`. -/
def inc_ref (d : TermIndexU) (i : Nat) : TermIndexU :=
  { d with i2c := d.i2c.set i (cget d.i2c i + 1) }

/-- `TermIndex::dec_ref`: decrement; on reaching zero, drop the
reverse-map entry, free the slot and push it on the free list. -/
def dec_ref (d : TermIndexU) (i : Nat) : TermIndexU :=
  let c := cget d.i2c i - 1
  if c = 0 then
    match (d.i2t[i]?).bind id with
    | some t =>
      { next_free := i, i2t := d.i2t.set i none,
        i2c := d.i2c.set i d.next_free, t2i := aremove d.t2i t }
    | none => { d with i2c := d.i2c.set i c }
  else { d with i2c := d.i2c.set i c }

/-! ## The indexed triple store (`src/graph/inmem/_hash_graph.rs`)

The `HashSet<[Index; 3]>` of triples is a duplicate-free list. -/

/-- `HashGraph`: a term dictionary plus a set of index-triples. -/
structure HashGraph where
  terms : TermIndexU
  triples : List (Nat × Nat × Nat)
deriving DecidableEq, Repr

/-- `HashGraph::new`. -/
def HashGraph.empty : HashGraph := ⟨TermIndexU.empty, []⟩

/-- `IndexedGraph::insert_indexed`: optimistically intern the three
positions, then add the index-triple; on a duplicate, roll the three
increments back with `dec_ref` and report `none`. -/
def insert_indexed (g : HashGraph) (s p o : Term) :
    Option (Nat × Nat × Nat) × HashGraph :=
  let r1 := make_index g.terms s
  let r2 := make_index r1.2 p
  let r3 := make_index r2.2 o
  let tr := (r1.1, r2.1, r3.1)
  if tr ∈ g.triples then
    (none, ⟨dec_ref (dec_ref (dec_ref r3.2 r1.1) r2.1) r3.1, g.triples⟩)
  else
    (some tr, ⟨r3.2, tr :: g.triples⟩)

/-- `IndexedGraph::remove_indexed`: resolve the three positions read-only;
if all resolve and the index-triple is present, remove it and release the
three indices. -/
def remove_indexed (g : HashGraph) (s p o : Term) :
    Option (Nat × Nat × Nat) × HashGraph :=
  match get_index g.terms s, get_index g.terms p, get_index g.terms o with
  | some si, some pi, some oi =>
    if (si, pi, oi) ∈ g.triples then
      (some (si, pi, oi),
        ⟨dec_ref (dec_ref (dec_ref g.terms si) pi) oi,
         g.triples.filter (fun tr => tr ≠ (si, pi, oi))⟩)
    else (none, g)
  | _, _, _ => (none, g)

/-- One mutation of the indexed store. -/
inductive Op where
  | ins : Term → Term → Term → Op
  | rem : Term → Term → Term → Op
deriving DecidableEq, Repr

/-- Apply a mutation, keeping the resulting store. -/
def applyOp (g : HashGraph) : Op → HashGraph
  | Op.ins s p o => (insert_indexed g s p o).2
  | Op.rem s p o => (remove_indexed g s p o).2

/-- Run a sequence of mutations from the empty store. -/
def run (ops : List Op) : HashGraph :=
  ops.foldl applyOp HashGraph.empty

/-! ## Well-formedness of the dictionary -/

/-- Number of occurrences of index `i` in one index-triple. -/
def occT (i : Nat) : Nat × Nat × Nat → Nat
  | (a, b, c) =>
    (if a = i then 1 else 0) + (if b = i then 1 else 0) +
      (if c = i then 1 else 0)

/-- Number of (triple, position) occurrences of index `i` in the store. -/
def occ (i : Nat) (ts : List (Nat × Nat × Nat)) : Nat :=
  (ts.map (occT i)).sum

/-- Refcount of a live slot, `0` for a free or out-of-range one. -/
def cnt (d : TermIndexU) (i : Nat) : Nat :=
  match get_term d i with
  | some _ => cget d.i2c i
  | none => 0

/-- The free slots reachable from `cur` form the chain `fl` through `i2c`,
ending at the array length (the "grow" sentinel). -/
def FreeChain (d : TermIndexU) : List Nat → Nat → Prop
  | [], cur => cur = d.i2t.length
  | i :: rest, cur =>
    cur = i ∧ d.i2t[i]? = some none ∧ FreeChain d rest (cget d.i2c i)

/-- Well-formedness of a dictionary: parallel arrays of equal length, a
duplicate-free reverse map containing exactly the live slots, and a
free list that is a duplicate-free chain covering every free slot. -/
structure WF (d : TermIndexU) : Prop where
  len_eq : d.i2c.length = d.i2t.length
  keys_nodup : (d.t2i.map Prod.fst).Nodup
  mem_iff : ∀ t i, (t, i) ∈ d.t2i ↔ d.i2t[i]? = some (some t)
  free_chain : ∃ fl, fl.Nodup ∧ FreeChain d fl d.next_free ∧
    ∀ i, d.i2t[i]? = some none → i ∈ fl

/-- Invariant of the indexed store: a well-formed dictionary, no duplicate
triples, and every index's refcount equal to its number of
(triple, position) occurrences (zero for non-live indices). -/
structure GInv (g : HashGraph) : Prop where
  wf : WF g.terms
  nodup : g.triples.Nodup
  conserve : ∀ i, cnt g.terms i = occ i g.triples

/-! ## The 17-quad fixture (`src/dataset/test.rs`, `some_quads`)

The term constants (`C1`, `P1`, `rdf::type_`, ... from the `ns` and
`graph::test` modules, not under `src/`) are modelled as distinct IRIs. -/

/-- Class `C1` of the fixture. -/
def tC1 : Term := Term.iri "ns:C1"

/-- Class `C2` of the fixture. -/
def tC2 : Term := Term.iri "ns:C2"

/-- Property `P1` of the fixture. -/
def tP1 : Term := Term.iri "ns:P1"

/-- Property `P2` of the fixture. -/
def tP2 : Term := Term.iri "ns:P2"

/-- Instance `I1A` of the fixture. -/
def tI1A : Term := Term.iri "ns:I1A"

/-- Instance `I1B` of the fixture. -/
def tI1B : Term := Term.iri "ns:I1B"

/-- Instance `I2A` of the fixture. -/
def tI2A : Term := Term.iri "ns:I2A"

/-- Instance `I2B` of the fixture. -/
def tI2B : Term := Term.iri "ns:I2B"

/-- Graph name `G1` of the fixture. -/
def tG1 : Term := Term.iri "ns:G1"

/-- Graph name `G2` of the fixture. -/
def tG2 : Term := Term.iri "ns:G2"

/-- `rdf:type`. -/
def rdfType : Term := Term.iri "rdf:type"

/-- `rdf:Property`. -/
def rdfProperty : Term := Term.iri "rdf:Property"

/-- `rdfs:Class`. -/
def rdfsClass : Term := Term.iri "rdfs:Class"

/-- `rdfs:subClassOf`. -/
def rdfsSubClassOf : Term := Term.iri "rdfs:subClassOf"

/-- `rdfs:domain`. -/
def rdfsDomain : Term := Term.iri "rdfs:domain"

/-- `rdfs:range`. -/
def rdfsRange : Term := Term.iri "rdfs:range"

/-- The 17 quads of `some_quads`, in source order. -/
def some_quads : List Quad := [
  ⟨tC1, rdfType, rdfsClass, none⟩,
  ⟨tC1, rdfType, rdfsClass, some tG1⟩,
  ⟨tC2, rdfType, rdfsClass, none⟩,
  ⟨tC2, rdfsSubClassOf, tC1, some tG1⟩,
  ⟨tP1, rdfType, rdfProperty, none⟩,
  ⟨tP1, rdfsDomain, tC1, some tG1⟩,
  ⟨tP1, rdfsRange, tC2, some tG1⟩,
  ⟨tP2, rdfType, rdfProperty, none⟩,
  ⟨tP2, rdfsDomain, tC2, some tG1⟩,
  ⟨tP2, rdfsRange, tC2, some tG1⟩,
  ⟨tI1A, rdfType, tC1, some tG2⟩,
  ⟨tI1B, rdfType, tC1, some tG2⟩,
  ⟨tI2A, rdfType, tC2, some tG2⟩,
  ⟨tI2B, rdfType, tC2, some tG2⟩,
  ⟨tI1A, tP1, tI2A, some tG2⟩,
  ⟨tI1B, tP1, tI2B, some tG2⟩,
  ⟨tI2A, tP2, tI2B, some tG2⟩]

/-- The wildcard term matcher (`ANY`). -/
def anyT : TermMatcher := ⟨fun _ => true, none⟩

/-- The wildcard graph-name matcher (`ANY`). -/
def anyG : GraphNameMatcher := ⟨fun _ => true, none⟩

/-- A term matcher pinned to the constant `tC1`. -/
def msC1 : TermMatcher := ⟨fun t => t == tC1, some tC1⟩

/-! ## Claims about the dataset trait -/

/-- C1: for every dataset state and every choice of per-position matchers
honouring the `constant()` contract, the dispatcher `quads_matching` yields
the same quads (even in the same order) as the full scan `quads` filtered
by the four matchers, across all 16 boundedness combinations. -/
theorem dispatch_equivalence (d : List Quad) (ms mp mo : TermMatcher)
    (mg : GraphNameMatcher)
    (hs : ms.lawful) (hp : mp.lawful) (ho : mo.lawful) (hg : mg.lawful) :
    quads_matching d ms mp mo mg = (quads d).filter
      (fun q => ms.matchFn q.s && mp.matchFn q.p && mo.matchFn q.o &&
        mg.matchFn q.g) := by
  rcases es : ms.const with _ | cs <;> rcases ep : mp.const with _ | cp <;>
    rcases eo : mo.const with _ | co <;> rcases eg : mg.const with _ | cg <;>
  simp only [quads_matching, es, ep, eo, eg, quads_with_spog, quads_with_spg,
      quads_with_sog, quads_with_pog, quads_with_spo, quads_with_sp,
      quads_with_so, quads_with_sg, quads_with_po, quads_with_pg,
      quads_with_og, quads_with_s, quads_with_p, quads_with_o, quads_with_g,
      quads, List.filter_filter] <;>
  refine List.filter_congr (fun q _ => ?_) <;>
  (try rw [hs _ es]) <;> (try rw [hp _ ep]) <;> (try rw [ho _ eo]) <;>
  (try rw [hg _ eg]) <;>
  simp [Bool.and_comm, Bool.and_left_comm, Bool.and_assoc]

/-- Witness for C1: the dispatch equivalence evaluated on the 17-quad
fixture with a constant subject matcher and wildcards elsewhere. -/
theorem dispatch_equivalence_witness :
    quads_matching some_quads msC1 anyT anyT anyG = (quads some_quads).filter
      (fun q => msC1.matchFn q.s && anyT.matchFn q.p && anyT.matchFn q.o &&
        anyG.matchFn q.g) :=
  dispatch_equivalence some_quads msC1 anyT anyT anyG
    (fun c hc t => by injection hc with h; subst h; rfl)
    (fun c hc => nomatch hc) (fun c hc => nomatch hc) (fun c hc => nomatch hc)

/-- C8: `contains` returns `true` exactly when the fully-bound dispatch
plan `quads_with_spog` yields at least one quad. -/
theorem contains_iff_nonempty (d : List Quad) (s p o : Term)
    (g : GraphName) :
    contains d s p o g = true ↔ quads_with_spog d s p o g ≠ [] := by
  cases h : quads_with_spog d s p o g <;> simp [contains, h]

/-- C9: on the 17-quad fixture, `predicates` yields exactly the six terms
rdf:type, rdfs:subClassOf, rdfs:domain, rdfs:range, P1, P2; `graph_names`
yields exactly G1 and G2; and exactly 6 quads have graph name G1. -/
theorem scenario_a :
    (predicates some_quads).Perm
      [rdfType, rdfsSubClassOf, rdfsDomain, rdfsRange, tP1, tP2] ∧
    (graph_names some_quads).Perm [tG1, tG2] ∧
    (quads_with_g some_quads (some tG1)).length = 6 := by decide

/-! ## Claims about the streaming drain -/

/-- The drain with counter `c` over `pre.map ok ++ tail` first replays the
successful run over `pre` and continues on `tail` with the counter advanced
by the number of changing quads in `pre`. -/
theorem drainAllGo_append {D E1 E2 : Type}
    (ins : D → Quad → Except E2 (D × Bool)) (pre : List Quad) :
    ∀ (d : D) (c : Nat) (d' : D) (n : Nat)
      (tail : List (Except E1 Quad)),
      processAll ins d pre = Except.ok (d', n) →
      drainAllGo ins d c (pre.map Except.ok ++ tail)
        = drainAllGo ins d' (c + n) tail := by
  induction pre with
  | nil =>
    intro d c d' n tail hok
    simp only [processAll, Except.ok.injEq, Prod.mk.injEq] at hok
    obtain ⟨rfl, rfl⟩ := hok
    rfl
  | cons q rest ih =>
    intro d c d' n tail hok
    simp only [processAll] at hok
    cases h1 : ins d q with
    | error e => rw [h1] at hok; exact absurd hok (by simp)
    | ok r =>
      obtain ⟨d1, b⟩ := r
      rw [h1] at hok
      simp only [Except.map] at hok
      cases h2 : processAll ins d1 rest with
      | error e => rw [h2] at hok; exact absurd hok (by simp)
      | ok r' =>
        obtain ⟨d2, n2⟩ := r'
        rw [h2] at hok
        simp only [Except.ok.injEq, Prod.mk.injEq] at hok
        obtain ⟨rfl, rfl⟩ := hok
        simp only [List.map_cons, List.cons_append, drainAllGo, h1,
          List.append_eq]
        rw [ih d1 (if b then c + 1 else c) _ _ tail h2]
        congr 1
        cases b <;> simp <;> omega

/-- C7: a drain (`insert_all`, and `remove_all` with the removal supplied
as the per-quad mutation) over a source that successfully processes `pre`
(1) returns on success the count of exactly the quads whose mutation
changed the store, (2) stops on a source failure, surfacing the
source domain, and (3) stops on a mutation failure, surfacing the sink
domain — in both failure cases the store reflects exactly the effects of
the quads processed before the failing item and none of the failing one. -/
theorem drain_short_circuit {D E1 E2 : Type}
    (ins : D → Quad → Except E2 (D × Bool)) (d : D) (pre : List Quad)
    (d' : D) (n : Nat)
    (hok : processAll ins d pre = Except.ok (d', n)) :
    (insert_all ins d ((pre.map Except.ok : List (Except E1 Quad)))
      = (d', Except.ok n)) ∧
    (∀ (e : E1) (rest : List (Except E1 Quad)),
      insert_all ins d (pre.map Except.ok ++ Except.error e :: rest)
        = (d', Except.error (StreamError.sourceErr e))) ∧
    (∀ (q : Quad) (e : E2) (rest : List (Except E1 Quad)),
      ins d' q = Except.error e →
      insert_all ins d (pre.map Except.ok ++ Except.ok q :: rest)
        = (d', Except.error (StreamError.sinkErr e))) := by
  refine ⟨?_, ?_, ?_⟩
  · have := @drainAllGo_append D E1 E2 ins pre d 0 d' n [] hok
    simpa [insert_all, drainAllGo] using this
  · intro e rest
    have := @drainAllGo_append D E1 E2 ins pre d 0 d' n
      (Except.error e :: rest) hok
    simpa [insert_all, drainAllGo] using this
  · intro q e rest hq
    have := @drainAllGo_append D E1 E2 ins pre d 0 d' n
      (Except.ok q :: rest) hok
    simp only [insert_all] at this ⊢
    rw [this]
    simp [drainAllGo, hq]

/-- Concrete set-flavoured per-quad insertion used by the drain witness:
rejects quads with a designated bad subject, otherwise inserts if absent
and reports whether the store changed. -/
def insW (d : List Quad) (q : Quad) : Except Nat (List Quad × Bool) :=
  if q.s = Term.bnode "bad" then Except.error 7
  else if q ∈ d then Except.ok (d, false) else Except.ok (q :: d, true)

/-- A quad the witness drain accepts. -/
def qW1 : Quad := ⟨tC1, rdfType, rdfsClass, none⟩

/-- A second quad the witness drain accepts. -/
def qW2 : Quad := ⟨tC1, rdfsSubClassOf, tC2, some tG1⟩

/-- The quad on which the witness sink fails. -/
def qBad : Quad := ⟨Term.bnode "bad", rdfType, rdfsClass, none⟩

/-- Witness for C7: draining two fresh quads then a bad one into an empty
store stops with a sink-domain failure, the store holding exactly the
first two quads. -/
theorem drain_short_circuit_witness :
    insert_all insW ([] : List Quad)
      ([qW1, qW2].map Except.ok ++ Except.ok qBad
        :: ([] : List (Except Nat Quad)))
      = ([qW2, qW1], Except.error (StreamError.sinkErr 7)) :=
  (drain_short_circuit insW [] [qW1, qW2] [qW2, qW1] 2
    (by rfl)).2.2 qBad 7 [] (by rfl)

/-! ## Association-list lemmas for the reverse map -/

/-- A found entry is a member. -/
theorem mem_of_alookup (m : List (Term × Nat)) (t : Term) (i : Nat)
    (h : alookup m t = some i) : (t, i) ∈ m := by
  induction m with
  | nil => simp [alookup] at h
  | cons kv rest ih =>
    obtain ⟨k, v⟩ := kv
    by_cases hk : k = t
    · subst hk
      simp [alookup] at h
      subst h
      exact List.mem_cons_self _ _
    · simp [alookup, hk] at h
      exact List.mem_cons_of_mem _ (ih h)

/-- With duplicate-free keys, every member is found. -/
theorem alookup_of_mem (m : List (Term × Nat)) (t : Term) (i : Nat)
    (hnd : (m.map Prod.fst).Nodup) (h : (t, i) ∈ m) :
    alookup m t = some i := by
  induction m with
  | nil => simp at h
  | cons kv rest ih =>
    obtain ⟨k, v⟩ := kv
    simp only [List.map_cons, List.nodup_cons] at hnd
    rcases List.mem_cons.mp h with h1 | h1
    · obtain ⟨rfl, rfl⟩ := Prod.mk.injEq .. ▸ h1
      simp [alookup]
    · have hk : k ≠ t := by
        rintro rfl
        exact hnd.1 (List.mem_map.mpr ⟨(k, i), h1, rfl⟩)
      simpa [alookup, hk] using ih hnd.2 h1

/-- A key is unfound exactly when it is absent. -/
theorem alookup_eq_none (m : List (Term × Nat)) (t : Term) :
    alookup m t = none ↔ ∀ i, (t, i) ∉ m := by
  induction m with
  | nil => simp [alookup]
  | cons kv rest ih =>
    obtain ⟨k, v⟩ := kv
    by_cases hk : k = t
    · subst hk
      simp only [alookup, if_pos rfl]
      constructor
      · intro h
        exact nomatch h
      · intro h
        exact ((h v) (List.mem_cons_self _ _)).elim
    · simp only [alookup, if_neg hk, ih, List.mem_cons]
      constructor
      · rintro h i (h1 | h1)
        · exact hk (congrArg Prod.fst h1).symm
        · exact h i h1
      · exact fun h i hi => h i (Or.inr hi)

/-- Membership after key removal. -/
theorem mem_aremove (m : List (Term × Nat)) (t : Term) (u : Term) (j : Nat) :
    (u, j) ∈ aremove m t ↔ (u, j) ∈ m ∧ u ≠ t := by
  simp [aremove, List.mem_filter]

/-- Key removal keeps the key list duplicate-free. -/
theorem aremove_keys_nodup (m : List (Term × Nat)) (t : Term)
    (h : (m.map Prod.fst).Nodup) : ((aremove m t).map Prod.fst).Nodup := by
  have he : (aremove m t).map Prod.fst
      = (m.map Prod.fst).filter (fun k => k ≠ t) := by
    clear h
    induction m with
    | nil => rfl
    | cons kv rest ih =>
      obtain ⟨k, v⟩ := kv
      by_cases hk : k = t <;>
        simp [aremove, List.filter_cons, hk] at ih ⊢ <;> exact ih
  rw [he]
  exact h.filter _

/-- Membership after insertion of a fresh key. -/
theorem mem_ainsert (m : List (Term × Nat)) (t : Term) (i : Nat)
    (u : Term) (j : Nat) :
    (u, j) ∈ ainsert m t i ↔ (u = t ∧ j = i) ∨ ((u, j) ∈ m ∧ u ≠ t) := by
  simp only [ainsert, List.mem_cons, mem_aremove, Prod.mk.injEq]

/-- Insertion keeps the key list duplicate-free. -/
theorem ainsert_keys_nodup (m : List (Term × Nat)) (t : Term) (i : Nat)
    (h : (m.map Prod.fst).Nodup) :
    ((ainsert m t i).map Prod.fst).Nodup := by
  simp only [ainsert, List.map_cons, List.nodup_cons]
  refine ⟨fun hmem => ?_, aremove_keys_nodup m t h⟩
  obtain ⟨⟨u, j⟩, hu, he⟩ := List.mem_map.mp hmem
  exact ((mem_aremove m t u j).mp hu).2 he

/-- Looking up the freshly inserted key. -/
theorem alookup_ainsert_self (m : List (Term × Nat)) (t : Term) (i : Nat) :
    alookup (ainsert m t i) t = some i := by
  simp [ainsert, alookup]

/-- Removal does not change other keys' lookups. -/
theorem alookup_aremove_ne (m : List (Term × Nat)) (t u : Term)
    (h : u ≠ t) : alookup (aremove m t) u = alookup m u := by
  induction m with
  | nil => rfl
  | cons kv rest ih =>
    obtain ⟨k, v⟩ := kv
    by_cases hk : k = t
    · subst hk
      have hne : k ≠ u := fun he => h he.symm
      simpa [aremove, List.filter_cons, alookup, hne] using ih
    · by_cases hku : k = u
      · subst hku
        simp [aremove, List.filter_cons, hk, alookup]
      · simpa [aremove, List.filter_cons, hk, alookup, hku] using ih

/-- Insertion does not change other keys' lookups. -/
theorem alookup_ainsert_ne (m : List (Term × Nat)) (t u : Term) (i : Nat)
    (h : u ≠ t) : alookup (ainsert m t i) u = alookup m u := by
  have ht : t ≠ u := fun he => h he.symm
  simp only [ainsert, alookup, if_neg ht]
  exact alookup_aremove_ne m t u h

/-! ## Elementary facts about `cget`, liveness and the free chain -/

/-- A live slot is in range. -/
theorem live_lt_length (d : TermIndexU) (i : Nat) (t : Term)
    (h : d.i2t[i]? = some (some t)) : i < d.i2t.length :=
  (List.getElem?_eq_some.mp h).1

/-- A free slot is in range. -/
theorem free_lt_length (d : TermIndexU) (i : Nat)
    (h : d.i2t[i]? = some none) : i < d.i2t.length :=
  (List.getElem?_eq_some.mp h).1

/-- Every member of a free chain is a free slot. -/
theorem freeChain_mem_free (d : TermIndexU) (fl : List Nat) :
    ∀ cur, FreeChain d fl cur → ∀ i ∈ fl, d.i2t[i]? = some none := by
  induction fl with
  | nil => simp
  | cons x rest ih =>
    intro cur h
    obtain ⟨-, hfree, hrest⟩ := h
    intro i hi
    rcases List.mem_cons.mp hi with rfl | hi
    · exact hfree
    · exact ih _ hrest i hi

/-- A free chain survives any update that keeps the array length and does
not touch the chain's slots. -/
theorem freeChain_congr (d d' : TermIndexU)
    (hlen : d'.i2t.length = d.i2t.length) (fl : List Nat) :
    ∀ cur, (∀ i ∈ fl, d'.i2t[i]? = d.i2t[i]?) →
      (∀ i ∈ fl, cget d'.i2c i = cget d.i2c i) →
      FreeChain d fl cur → FreeChain d' fl cur := by
  induction fl with
  | nil =>
    intro cur _ _ h
    simp only [FreeChain] at h ⊢
    omega
  | cons x rest ih =>
    intro cur ht hc h
    obtain ⟨hx, hfree, hrest⟩ := h
    subst hx
    refine ⟨rfl, ?_, ?_⟩
    · rw [ht cur (List.mem_cons_self _ _)]; exact hfree
    · rw [hc cur (List.mem_cons_self _ _)]
      exact ih _ (fun i hi => ht i (List.mem_cons_of_mem _ hi))
        (fun i hi => hc i (List.mem_cons_of_mem _ hi)) hrest

/-- The chain starting at the array length is empty. -/
theorem freeChain_at_length (d : TermIndexU) (fl : List Nat)
    (h : FreeChain d fl d.i2t.length) : fl = [] := by
  cases fl with
  | nil => rfl
  | cons x rest =>
    obtain ⟨hx, hfree, -⟩ := h
    have := free_lt_length d x hfree
    omega

/-- `cget` after an in-range update at the same position. -/
theorem cget_set_self (l : List Nat) (i v : Nat) (h : i < l.length) :
    cget (l.set i v) i = v := by
  simp [cget, List.getElem?_set_self h]

/-- `cget` after an update at a different position. -/
theorem cget_set_ne (l : List Nat) (i j v : Nat) (h : i ≠ j) :
    cget (l.set i v) j = cget l j := by
  simp [cget, List.getElem?_set_ne h]

/-- A free slot has count zero. -/
theorem cnt_of_free (d : TermIndexU) (i : Nat)
    (h : d.i2t[i]? = some none) : cnt d i = 0 := by
  simp [cnt, get_term, h]

/-- An out-of-range slot has count zero. -/
theorem cnt_of_oob (d : TermIndexU) (i : Nat)
    (h : d.i2t.length ≤ i) : cnt d i = 0 := by
  simp [cnt, get_term, List.getElem?_eq_none h]

/-- A live slot's count reads `i2c`. -/
theorem cnt_of_live (d : TermIndexU) (i : Nat) (t : Term)
    (h : d.i2t[i]? = some (some t)) : cnt d i = cget d.i2c i := by
  simp [cnt, get_term, h]

/-- In a well-formed dictionary the slot at `next_free` is never live. -/
theorem cnt_next_free (d : TermIndexU) (hwf : WF d) :
    cnt d d.next_free = 0 := by
  obtain ⟨fl, -, hch, -⟩ := hwf.free_chain
  cases fl with
  | nil =>
    simp only [FreeChain] at hch
    exact cnt_of_oob d _ (le_of_eq hch.symm)
  | cons x rest =>
    obtain ⟨hx, hfree, -⟩ := hch
    exact hx ▸ cnt_of_free d x hfree

/-- A found index points at a live slot holding the term. -/
theorem live_of_get_index (d : TermIndexU) (t : Term) (i : Nat)
    (hwf : WF d) (h : get_index d t = some i) :
    d.i2t[i]? = some (some t) :=
  (hwf.mem_iff t i).mp (mem_of_alookup _ _ _ h)

/-- An unfound term is live at no slot. -/
theorem not_live_of_get_index_none (d : TermIndexU) (t : Term)
    (hwf : WF d) (h : get_index d t = none) :
    ∀ j : Nat, d.i2t[j]? ≠ some (some t) := by
  intro j hj
  exact (alookup_eq_none d.t2i t).mp h j ((hwf.mem_iff t j).mpr hj)

/-- `cnt` of an `i2c`-only update at a slot live in the base dictionary
reads the new count list. -/
theorem cnt_i2c_live (d : TermIndexU) (l : List Nat) (j : Nat) (t : Term)
    (hl : d.i2t[j]? = some (some t)) :
    cnt { d with i2c := l } j = cget l j := by
  simp [cnt, get_term, hl]

/-- `cnt` of an `i2c`-only update that preserves the count at a slot. -/
theorem cnt_i2c_congr (d : TermIndexU) (l : List Nat) (j : Nat)
    (hc : cget l j = cget d.i2c j) :
    cnt { d with i2c := l } j = cnt d j := by
  have hgt : get_term { d with i2c := l } j = get_term d j := rfl
  unfold cnt
  rw [hgt]
  cases get_term d j
  · rfl
  · exact hc

/-- `cnt` only depends on the slot's forward entry and count. -/
theorem cnt_congr (d d' : TermIndexU) (j : Nat)
    (ht : d'.i2t[j]? = d.i2t[j]?) (hc : cget d'.i2c j = cget d.i2c j) :
    cnt d' j = cnt d j := by
  unfold cnt get_term
  rw [ht, hc]

/-- What one `make_index` call does to a well-formed dictionary: the
returned slot is live with the interned term and its count is bumped by
one; every other slot, every other count, and every other term's lookup
are untouched; well-formedness is preserved. -/
structure MkSpec (d : TermIndexU) (t : Term) (i' : Nat) (d' : TermIndexU) :
    Prop where
  ret_live : d'.i2t[i']? = some (some t)
  i2t_other : ∀ j, j ≠ i' → d'.i2t[j]? = d.i2t[j]?
  cnt_self : cnt d' i' = cnt d i' + 1
  cnt_other : ∀ j, j ≠ i' → cnt d' j = cnt d j
  gi_self : get_index d' t = some i'
  gi_other : ∀ u, u ≠ t → get_index d' u = get_index d u
  wf : WF d'

/-- `make_index` satisfies `MkSpec` on every well-formed dictionary. -/
theorem make_index_spec (d : TermIndexU) (t : Term) (hwf : WF d) :
    MkSpec d t (make_index d t).1 (make_index d t).2 := by
  rcases h : alookup d.t2i t with _ | i
  · -- fresh term
    have habs : ∀ j : Nat, d.i2t[j]? ≠ some (some t) :=
      not_live_of_get_index_none d t hwf h
    obtain ⟨fl, hnd, hch, hcov⟩ := hwf.free_chain
    by_cases heq : d.next_free = d.i2t.length
    · -- append branch
      have hfl : fl = [] := freeChain_at_length d fl (heq ▸ hch)
      subst hfl
      have hnofree : ∀ j : Nat, d.i2t[j]? ≠ some none := by
        intro j hj
        exact absurd (hcov j hj) (List.not_mem_nil j)
      simp only [make_index, h, if_pos heq]
      have hlen2 : d.i2c.length = d.i2t.length := hwf.len_eq
      refine ⟨?_, ?_, ?_, ?_, ?_, ?_, ?_⟩
      ·
        simpa [heq] using List.getElem?_concat_length d.i2t (some t)
      ·
        intro j hj
        rcases Nat.lt_or_ge j d.i2t.length with hlt | hge
        · simp [List.getElem?_append, hlt]
        · have hgt : d.i2t.length < j := by omega
          rw [@List.getElem?_eq_none _ (d.i2t ++ [some t]) j (by simp; omega),
            List.getElem?_eq_none hge]
      ·
        have h0 : cnt d d.next_free = 0 := cnt_of_oob d _ (le_of_eq heq.symm)
        rw [h0]
        have hlive : (d.i2t ++ [some t])[d.next_free]? = some (some t) := by
          simpa [heq] using List.getElem?_concat_length d.i2t (some t)
        rw [cnt_of_live _ _ t hlive]
        simp only [cget, heq, ← hlen2]
        rw [List.getElem?_concat_length]
        rfl
      ·
        intro j hj
        rcases Nat.lt_or_ge j d.i2t.length with hlt | hge
        · refine cnt_congr d _ j ?_ ?_
          · simp [List.getElem?_append, hlt]
          · simp [cget, List.getElem?_append, hlen2 ▸ hlt]
        · have hj' : j ≠ d.i2t.length := heq ▸ hj
          rw [cnt_of_oob d j hge, cnt_of_oob]
          simp only [List.length_append, List.length_singleton]
          omega
      ·
        exact alookup_ainsert_self d.t2i t d.next_free
      ·
        intro u hu
        exact alookup_ainsert_ne d.t2i t u d.next_free hu
      ·
        refine WF.mk ?_ ?_ ?_ ?_
        · simp [hlen2]
        · exact ainsert_keys_nodup _ _ _ hwf.keys_nodup
        ·
          intro u j
          rw [mem_ainsert]
          constructor
          · rintro (⟨rfl, rfl⟩ | ⟨hm, -⟩)
            · simpa [heq] using List.getElem?_concat_length d.i2t (some t)
            · have := (hwf.mem_iff u j).mp hm
              have hlt : j < d.i2t.length := live_lt_length d j u this
              simpa [List.getElem?_append, hlt] using this
          · intro he
            rcases Nat.lt_or_ge j d.i2t.length with hlt | hge
            · rw [List.getElem?_append] at he
              rw [if_pos hlt] at he
              have hm := (hwf.mem_iff u j).mpr he
              have hut : u ≠ t := by
                rintro rfl
                exact habs j he
              exact Or.inr ⟨hm, hut⟩
            · rcases Nat.eq_or_lt_of_le hge with rfl | hgt
              · rw [List.getElem?_concat_length] at he
                injection he with he'
                injection he' with he''
                exact Or.inl ⟨he''.symm, heq.symm⟩
              · rw [List.getElem?_eq_none (by simp; omega)] at he
                exact nomatch he
        ·
          refine ⟨[], List.nodup_nil, ?_, ?_⟩
          · simp only [FreeChain, List.length_append, List.length_singleton]
            omega
          · intro j hj
            rcases Nat.lt_or_ge j d.i2t.length with hlt | hge
            · rw [List.getElem?_append, if_pos hlt] at hj
              exact absurd (hcov j hj) (List.not_mem_nil j)
            · rcases Nat.eq_or_lt_of_le hge with rfl | hgt
              · rw [List.getElem?_concat_length] at hj
                exact nomatch hj
              · rw [List.getElem?_eq_none (by simp; omega)] at hj
                exact nomatch hj
    · -- reuse branch
      cases fl with
      | nil =>
        simp only [FreeChain] at hch
        exact absurd hch heq
      | cons x rest =>
        obtain ⟨hx, hfreex, hrest⟩ := hch
        subst hx
        have hxltt : d.next_free < d.i2t.length := free_lt_length d _ hfreex
        have hxltc : d.next_free < d.i2c.length := hwf.len_eq ▸ hxltt
        have hxnotin : d.next_free ∉ rest := (List.nodup_cons.mp hnd).1
        have hndrest : rest.Nodup := (List.nodup_cons.mp hnd).2
        simp only [make_index, h, if_neg heq]
        constructor
        ·
          simp [List.getElem?_set_self hxltt]
        ·
          intro j hj
          exact List.getElem?_set_ne (fun he => hj he.symm)
        ·
          rw [cnt_of_free d _ hfreex]
          have hlive : (d.i2t.set d.next_free (some t))[d.next_free]?
              = some (some t) := List.getElem?_set_self hxltt
          rw [cnt_of_live _ _ t hlive]
          exact cget_set_self d.i2c _ 1 hxltc
        ·
          intro j hj
          have hne : d.next_free ≠ j := fun he => hj he.symm
          have ht' : (d.i2t.set d.next_free (some t))[j]? = d.i2t[j]? :=
            List.getElem?_set_ne hne
          cases hv : d.i2t[j]? with
          | none =>
            rw [cnt_of_oob d j, cnt_of_oob]
            · have := (List.getElem?_eq_none_iff).mp hv
              simpa using this
            · exact (List.getElem?_eq_none_iff).mp hv
          | some v =>
            cases v with
            | none => rw [cnt_of_free d j hv, cnt_of_free _ j (ht' ▸ hv)]
            | some u =>
              rw [cnt_of_live d j u hv, cnt_of_live _ j u (ht' ▸ hv)]
              exact cget_set_ne d.i2c _ j 1 hne
        · exact alookup_ainsert_self d.t2i t d.next_free
        ·
          intro u hu
          exact alookup_ainsert_ne d.t2i t u d.next_free hu
        ·
          refine WF.mk ?_ ?_ ?_ ?_
          · simp [hwf.len_eq]
          · exact ainsert_keys_nodup _ _ _ hwf.keys_nodup
          ·
            intro u j
            rw [mem_ainsert]
            constructor
            · rintro (⟨rfl, rfl⟩ | ⟨hm, -⟩)
              · exact List.getElem?_set_self hxltt
              · have he := (hwf.mem_iff u j).mp hm
                have hj : j ≠ d.next_free := by
                  rintro rfl
                  rw [hfreex] at he
                  exact nomatch he
                rw [List.getElem?_set_ne (fun h' => hj h'.symm)]
                exact he
            · intro he
              by_cases hj : j = d.next_free
              · subst hj
                rw [List.getElem?_set_self hxltt] at he
                injection he with he'
                injection he' with he''
                exact Or.inl ⟨he''.symm, rfl⟩
              · rw [List.getElem?_set_ne (fun h' => hj h'.symm)] at he
                have hm := (hwf.mem_iff u j).mpr he
                have hut : u ≠ t := by
                  rintro rfl
                  exact habs j he
                exact Or.inr ⟨hm, hut⟩
          ·
            refine ⟨rest, hndrest, ?_, ?_⟩
            · refine freeChain_congr d _ (by simp) rest _ ?_ ?_ hrest
              · intro j hj
                have hne : d.next_free ≠ j := by
                  rintro rfl
                  exact hxnotin hj
                exact List.getElem?_set_ne hne
              · intro j hj
                have hne : d.next_free ≠ j := by
                  rintro rfl
                  exact hxnotin hj
                exact cget_set_ne d.i2c _ j 1 hne
            · intro j hj
              by_cases hje : j = d.next_free
              · subst hje
                rw [List.getElem?_set_self hxltt] at hj
                exact nomatch hj
              · rw [List.getElem?_set_ne (fun h' => hje h'.symm)] at hj
                have := hcov j hj
                exact (List.mem_cons.mp this).resolve_left hje
  · -- existing term
    have hmem : (t, i) ∈ d.t2i := mem_of_alookup _ _ _ h
    have hlive : d.i2t[i]? = some (some t) := (hwf.mem_iff t i).mp hmem
    have hilen : i < d.i2t.length := live_lt_length d i t hlive
    have hiclen : i < d.i2c.length := hwf.len_eq ▸ hilen
    simp only [make_index, h]
    refine ⟨?_, ?_, ?_, ?_, ?_, ?_, ?_⟩
    · exact hlive
    · intro j _; rfl
    ·
      rw [cnt_i2c_live d _ i t hlive, cnt_of_live d i t hlive]
      exact cget_set_self d.i2c i _ hiclen
    ·
      intro j hj
      have hne : i ≠ j := fun he => hj he.symm
      exact cnt_i2c_congr d _ j (cget_set_ne d.i2c i j _ hne)
    · exact h
    · intro u _; rfl
    ·
      refine WF.mk ?_ ?_ ?_ ?_
      · simp [hwf.len_eq]
      · exact hwf.keys_nodup
      · exact hwf.mem_iff
      ·
        obtain ⟨fl, hnd, hch, hcov⟩ := hwf.free_chain
        refine ⟨fl, hnd, ?_, hcov⟩
        refine freeChain_congr d _ ?_ fl _ ?_ ?_ hch
        · rfl
        · intro j _
          rfl
        · intro j hj
          have hji : i ≠ j := by
            intro he
            rw [← he] at hj
            rw [freeChain_mem_free d fl _ hch i hj] at hlive
            exact nomatch hlive
          exact cget_set_ne d.i2c i j _ hji

/-- On an already-interned term, `make_index` only bumps a count: the
returned index is the existing one and the forward array, reverse map and
free-list head are untouched. -/
theorem make_index_existing (d : TermIndexU) (t : Term) (i : Nat)
    (h : get_index d t = some i) :
    (make_index d t).1 = i ∧ (make_index d t).2.i2t = d.i2t ∧
    (make_index d t).2.t2i = d.t2i ∧
    (make_index d t).2.next_free = d.next_free ∧
    (make_index d t).2.i2c = d.i2c.set i (cget d.i2c i + 1) := by
  simp only [get_index] at h
  simp [make_index, h]

/-- On a fresh term, `make_index` allocates the free-list head (or the
append position), a slot that carries no references in a well-formed
dictionary. -/
theorem make_index_fresh (d : TermIndexU) (t : Term) (hwf : WF d)
    (h : get_index d t = none) :
    (make_index d t).1 = d.next_free ∧ cnt d (make_index d t).1 = 0 := by
  simp only [get_index] at h
  have hret : (make_index d t).1 = d.next_free := by
    by_cases heq : d.next_free = d.i2t.length <;>
      simp [make_index, h, heq]
  exact ⟨hret, hret ▸ cnt_next_free d hwf⟩

/-- What one `dec_ref` call does to a well-formed dictionary at a live,
referenced slot: the slot's count drops by one (freeing the slot when it
reaches zero); every other slot, count and lookup are untouched;
well-formedness is preserved. -/
structure DecSpec (d : TermIndexU) (i : Nat) (t : Term) (d' : TermIndexU) :
    Prop where
  cnt_self : cnt d' i = cnt d i - 1
  cnt_other : ∀ j, j ≠ i → cnt d' j = cnt d j
  i2t_other : ∀ j, j ≠ i → d'.i2t[j]? = d.i2t[j]?
  gi_other : ∀ u, u ≠ t → get_index d' u = get_index d u
  wf : WF d'

/-- `dec_ref` keeps everything but `i2c` when the count stays positive. -/
theorem dec_ref_big (d : TermIndexU) (i : Nat)
    (h2 : 2 ≤ cget d.i2c i) :
    dec_ref d i = { d with i2c := d.i2c.set i (cget d.i2c i - 1) } := by
  have hne : ¬(cget d.i2c i - 1 = 0) := by omega
  simp [dec_ref, hne]

/-- `dec_ref` frees the slot when the count was one. -/
theorem dec_ref_to_zero (d : TermIndexU) (i : Nat) (t : Term)
    (hlive : d.i2t[i]? = some (some t)) (h1 : cget d.i2c i = 1) :
    dec_ref d i = ⟨i, d.i2t.set i none, d.i2c.set i d.next_free,
      aremove d.t2i t⟩ := by
  simp [dec_ref, h1, hlive]

/-- `dec_ref` satisfies `DecSpec` at every live, referenced slot of a
well-formed dictionary. -/
theorem dec_ref_spec (d : TermIndexU) (i : Nat) (t : Term) (hwf : WF d)
    (hlive : d.i2t[i]? = some (some t)) (hc : 1 ≤ cget d.i2c i) :
    DecSpec d i t (dec_ref d i) := by
  have hilen : i < d.i2t.length := live_lt_length d i t hlive
  have hiclen : i < d.i2c.length := hwf.len_eq ▸ hilen
  by_cases hone : cget d.i2c i = 1
  · -- the count reaches zero: the slot is freed
    rw [dec_ref_to_zero d i t hlive hone]
    have hmem : (t, i) ∈ d.t2i := (hwf.mem_iff t i).mpr hlive
    obtain ⟨fl, hnd, hch, hcov⟩ := hwf.free_chain
    have hinotfl : i ∉ fl := by
      intro hin
      rw [freeChain_mem_free d fl _ hch i hin] at hlive
      exact nomatch hlive
    refine ⟨?_, ?_, ?_, ?_, ?_⟩
    · rw [cnt_of_live d i t hlive, hone]
      exact cnt_of_free _ i (List.getElem?_set_self hilen)
    · intro j hj
      have hne : i ≠ j := fun he => hj he.symm
      exact cnt_congr d _ j (List.getElem?_set_ne hne)
        (cget_set_ne d.i2c i j _ hne)
    · intro j hj
      exact List.getElem?_set_ne (fun he => hj he.symm)
    · intro u hu
      exact alookup_aremove_ne d.t2i t u hu
    · refine WF.mk ?_ ?_ ?_ ?_
      · simp [hwf.len_eq]
      · exact aremove_keys_nodup _ _ hwf.keys_nodup
      · intro u j
        rw [mem_aremove]
        constructor
        · rintro ⟨hm, hut⟩
          have he := (hwf.mem_iff u j).mp hm
          have hji : j ≠ i := by
            rintro rfl
            rw [hlive] at he
            injection he with he'
            injection he' with he''
            exact hut he''.symm
          rw [List.getElem?_set_ne (fun h' => hji h'.symm)]
          exact he
        · intro he
          by_cases hji : j = i
          · subst hji
            rw [List.getElem?_set_self hilen] at he
            exact nomatch he
          · rw [List.getElem?_set_ne (fun h' => hji h'.symm)] at he
            have hm := (hwf.mem_iff u j).mpr he
            refine ⟨hm, ?_⟩
            rintro rfl
            have h1 := alookup_of_mem d.t2i u j hwf.keys_nodup hm
            have h2 := alookup_of_mem d.t2i u i hwf.keys_nodup hmem
            rw [h1] at h2
            injection h2 with h3
            exact hji h3
      · refine ⟨i :: fl, List.nodup_cons.mpr ⟨hinotfl, hnd⟩, ?_, ?_⟩
        · refine ⟨rfl, List.getElem?_set_self hilen, ?_⟩
          rw [cget_set_self d.i2c i _ hiclen]
          refine freeChain_congr d _ (by simp) fl _ ?_ ?_ hch
          · intro j hj
            have hne : i ≠ j := by
              rintro rfl
              exact hinotfl hj
            exact List.getElem?_set_ne hne
          · intro j hj
            have hne : i ≠ j := by
              rintro rfl
              exact hinotfl hj
            exact cget_set_ne d.i2c i j _ hne
        · intro j hj
          by_cases hji : j = i
          · exact hji ▸ List.mem_cons_self i fl
          · rw [List.getElem?_set_ne (fun h' => hji h'.symm)] at hj
            exact List.mem_cons_of_mem i (hcov j hj)
  · -- the count stays positive
    have h2 : 2 ≤ cget d.i2c i := by omega
    rw [dec_ref_big d i h2]
    refine ⟨?_, ?_, ?_, ?_, ?_⟩
    · rw [cnt_i2c_live d _ i t hlive, cnt_of_live d i t hlive]
      exact cget_set_self d.i2c i _ hiclen
    · intro j hj
      have hne : i ≠ j := fun he => hj he.symm
      exact cnt_i2c_congr d _ j (cget_set_ne d.i2c i j _ hne)
    · intro j _
      rfl
    · intro u _
      rfl
    · refine WF.mk ?_ ?_ ?_ ?_
      · simp [hwf.len_eq]
      · exact hwf.keys_nodup
      · exact hwf.mem_iff
      · obtain ⟨fl, hnd, hch, hcov⟩ := hwf.free_chain
        refine ⟨fl, hnd, ?_, hcov⟩
        refine freeChain_congr d _ ?_ fl _ ?_ ?_ hch
        · rfl
        · intro j _
          rfl
        · intro j hj
          have hne : i ≠ j := by
            rintro rfl
            rw [freeChain_mem_free d fl _ hch i hj] at hlive
            exact nomatch hlive
          exact cget_set_ne d.i2c i j _ hne

/-! ## Occurrence counting and the store invariant -/

/-- `occ` over a cons. -/
theorem occ_cons (j : Nat) (tr : Nat × Nat × Nat)
    (ts : List (Nat × Nat × Nat)) :
    occ j (tr :: ts) = occT j tr + occ j ts := by
  simp [occ]

/-- A member triple contributes at most the total occurrence count. -/
theorem occT_le_occ (j : Nat) (tr : Nat × Nat × Nat)
    (ts : List (Nat × Nat × Nat)) (h : tr ∈ ts) :
    occT j tr ≤ occ j ts := by
  induction ts with
  | nil => simp at h
  | cons x rest ih =>
    rw [occ_cons]
    rcases List.mem_cons.mp h with rfl | h1
    · omega
    · have := ih h1
      omega

/-- Removing one member of a duplicate-free store removes exactly its
occurrence contribution. -/
theorem occ_erase (j : Nat) (tr : Nat × Nat × Nat)
    (ts : List (Nat × Nat × Nat)) (hnd : ts.Nodup) (h : tr ∈ ts) :
    occ j (ts.filter (fun x => x ≠ tr)) = occ j ts - occT j tr := by
  induction ts with
  | nil => simp at h
  | cons x rest ih =>
    rw [occ_cons]
    rcases List.mem_cons.mp h with rfl | h1
    · have hnotin : tr ∉ rest := (List.nodup_cons.mp hnd).1
      have hrest : rest.filter (fun x => x ≠ tr) = rest := by
        refine List.filter_eq_self.mpr ?_
        intro a ha
        simp only [ne_eq, decide_eq_true_eq]
        rintro rfl
        exact hnotin ha
      simp only [List.filter_cons, ne_eq, decide_eq_true_eq]
      rw [if_neg (by simp), hrest]
      omega
    · have hx : tr ≠ x := by
        rintro rfl
        have hnotin : tr ∉ rest := (List.nodup_cons.mp hnd).1
        exact hnotin h1
      simp only [List.filter_cons, ne_eq, decide_eq_true_eq]
      rw [if_pos (by simpa using fun he => hx he.symm), occ_cons,
        ih (List.nodup_cons.mp hnd).2 h1]
      have := occT_le_occ j tr rest h1
      omega

/-- A slot with a positive count is live. -/
theorem live_of_cnt_pos (d : TermIndexU) (j : Nat) (h : 1 ≤ cnt d j) :
    ∃ u, d.i2t[j]? = some (some u) := by
  unfold cnt get_term at h
  cases hv : d.i2t[j]? with
  | none => rw [hv] at h; exact absurd h (by simp)
  | some v =>
    cases v with
    | none => rw [hv] at h; exact absurd h (by simp)
    | some u => exact ⟨u, rfl⟩

/-- `dec_ref_spec` restated from a positive count. -/
theorem dec_ref_spec_of_cnt (d : TermIndexU) (i : Nat) (hwf : WF d)
    (h : 1 ≤ cnt d i) :
    ∃ t, d.i2t[i]? = some (some t) ∧ DecSpec d i t (dec_ref d i) := by
  obtain ⟨u, hu⟩ := live_of_cnt_pos d i h
  have hc : 1 ≤ cget d.i2c i := by rwa [cnt_of_live d i u hu] at h
  exact ⟨u, hu, dec_ref_spec d i u hwf hu hc⟩

/-- The empty dictionary is well-formed. -/
theorem wf_empty : WF TermIndexU.empty := by
  refine WF.mk rfl List.nodup_nil ?_ ⟨[], List.nodup_nil, rfl, ?_⟩
  · intro t i
    simp [TermIndexU.empty]
  · intro i hi
    simp [TermIndexU.empty] at hi

/-- The empty store satisfies the invariant. -/
theorem ginv_empty : GInv HashGraph.empty := by
  refine ⟨wf_empty, List.nodup_nil, ?_⟩
  intro i
  simp [HashGraph.empty, occ, cnt, get_term, TermIndexU.empty]

/-- The count profile of one `MkSpec` step, as a single equation. -/
theorem mkspec_cnt (d : TermIndexU) (t : Term) (i' : Nat) (d' : TermIndexU)
    (sp : MkSpec d t i' d') :
    ∀ j, cnt d' j = cnt d j + (if i' = j then 1 else 0) := by
  intro j
  by_cases hj : j = i'
  · subst hj
    rw [sp.cnt_self]
    simp
  · rw [sp.cnt_other j hj, if_neg (fun he => hj he.symm)]
    omega

/-- The count profile of one `DecSpec` step, as a single equation. -/
theorem decspec_cnt (d : TermIndexU) (i : Nat) (t : Term) (d' : TermIndexU)
    (ds : DecSpec d i t d') :
    ∀ j, cnt d' j = cnt d j - (if i = j then 1 else 0) := by
  intro j
  by_cases hj : j = i
  · subst hj
    rw [ds.cnt_self]
    simp
  · rw [ds.cnt_other j hj, if_neg (fun he => hj he.symm)]
    omega

/-- Invariant preservation for `insert_indexed`, stated over the abstract
outcome of the three interning steps. -/
theorem ginv_insert_aux (terms0 : TermIndexU) (ts : List (Nat × Nat × Nat))
    (s p o : Term) (si pi oi : Nat) (d1 d2 d3 : TermIndexU)
    (hnd : ts.Nodup) (hcons : ∀ j, cnt terms0 j = occ j ts)
    (sp1 : MkSpec terms0 s si d1) (sp2 : MkSpec d1 p pi d2)
    (sp3 : MkSpec d2 o oi d3) :
    GInv (if (si, pi, oi) ∈ ts
      then (⟨dec_ref (dec_ref (dec_ref d3 si) pi) oi, ts⟩ : HashGraph)
      else (⟨d3, (si, pi, oi) :: ts⟩ : HashGraph)) := by
  have h1 := mkspec_cnt _ _ _ _ sp1
  have h2 := mkspec_cnt _ _ _ _ sp2
  have h3 := mkspec_cnt _ _ _ _ sp3
  have hcnt3 : ∀ j, cnt d3 j = occ j ts + occT j (si, pi, oi) := by
    intro j
    rw [h3 j, h2 j, h1 j, hcons j]
    simp only [occT]
    split_ifs <;> omega
  by_cases hmem : (si, pi, oi) ∈ ts
  · rw [if_pos hmem]
    have hocc := occT_le_occ si (si, pi, oi) ts hmem
    have hpos1 : 1 ≤ cnt d3 si := by
      rw [hcnt3 si]
      simp only [occT]
      split_ifs <;> omega
    obtain ⟨u1, hu1, ds1⟩ := dec_ref_spec_of_cnt d3 si sp3.wf hpos1
    have h4 := decspec_cnt _ _ _ _ ds1
    have hpos2 : 1 ≤ cnt (dec_ref d3 si) pi := by
      rw [h4 pi, hcnt3 pi]
      simp only [occT]
      split_ifs <;> omega
    obtain ⟨u2, hu2, ds2⟩ := dec_ref_spec_of_cnt _ pi ds1.wf hpos2
    have h5 := decspec_cnt _ _ _ _ ds2
    have hpos3 : 1 ≤ cnt (dec_ref (dec_ref d3 si) pi) oi := by
      rw [h5 oi, h4 oi, hcnt3 oi]
      simp only [occT]
      split_ifs <;> omega
    obtain ⟨u3, hu3, ds3⟩ := dec_ref_spec_of_cnt _ oi ds2.wf hpos3
    have h6 := decspec_cnt _ _ _ _ ds3
    refine ⟨ds3.wf, hnd, ?_⟩
    intro j
    show cnt (dec_ref (dec_ref (dec_ref d3 si) pi) oi) j = occ j ts
    rw [h6 j, h5 j, h4 j, hcnt3 j]
    simp only [occT]
    split_ifs <;> omega
  · rw [if_neg hmem]
    refine ⟨sp3.wf, List.nodup_cons.mpr ⟨hmem, hnd⟩, ?_⟩
    intro j
    show cnt d3 j = occ j ((si, pi, oi) :: ts)
    rw [occ_cons, hcnt3 j]
    omega

/-- C2 ingredient: `insert_indexed` preserves the store invariant. -/
theorem insert_indexed_preserves (g : HashGraph) (s p o : Term)
    (hg : GInv g) : GInv (insert_indexed g s p o).2 := by
  obtain ⟨hwf, hnd, hcons⟩ := hg
  have sp1 := make_index_spec g.terms s hwf
  have sp2 := make_index_spec (make_index g.terms s).2 p sp1.wf
  have sp3 := make_index_spec (make_index (make_index g.terms s).2 p).2 o
    sp2.wf
  have := ginv_insert_aux g.terms g.triples s p o _ _ _ _ _ _
    hnd hcons sp1 sp2 sp3
  simpa [insert_indexed, apply_ite] using this

/-- Releasing the three components of a member triple lowers each
refcount by the component's multiplicity in that triple and preserves
well-formedness. -/
theorem dec3_cnt (terms0 : TermIndexU) (ts : List (Nat × Nat × Nat))
    (si pi oi : Nat) (hwf : WF terms0)
    (hcons : ∀ j, cnt terms0 j = occ j ts) (hmem : (si, pi, oi) ∈ ts) :
    (∀ j, cnt (dec_ref (dec_ref (dec_ref terms0 si) pi) oi) j
      = cnt terms0 j - occT j (si, pi, oi)) ∧
    WF (dec_ref (dec_ref (dec_ref terms0 si) pi) oi) := by
  have hocc1 := occT_le_occ si (si, pi, oi) ts hmem
  have hocc2 := occT_le_occ pi (si, pi, oi) ts hmem
  have hocc3 := occT_le_occ oi (si, pi, oi) ts hmem
  simp only [occT] at hocc1 hocc2 hocc3
  have hpos1 : 1 ≤ cnt terms0 si := by
    rw [hcons si]
    split_ifs at hocc1 <;> omega
  obtain ⟨u1, hu1, ds1⟩ := dec_ref_spec_of_cnt terms0 si hwf hpos1
  have h4 := decspec_cnt _ _ _ _ ds1
  have hpos2 : 1 ≤ cnt (dec_ref terms0 si) pi := by
    rw [h4 pi, hcons pi]
    split_ifs at hocc2 ⊢ <;> omega
  obtain ⟨u2, hu2, ds2⟩ := dec_ref_spec_of_cnt _ pi ds1.wf hpos2
  have h5 := decspec_cnt _ _ _ _ ds2
  have hpos3 : 1 ≤ cnt (dec_ref (dec_ref terms0 si) pi) oi := by
    rw [h5 oi, h4 oi, hcons oi]
    split_ifs at hocc3 ⊢ <;> omega
  obtain ⟨u3, hu3, ds3⟩ := dec_ref_spec_of_cnt _ oi ds2.wf hpos3
  have h6 := decspec_cnt _ _ _ _ ds3
  refine ⟨?_, ds3.wf⟩
  intro j
  rw [h6 j, h5 j, h4 j]
  simp only [occT]
  split_ifs <;> omega

/-- Invariant preservation for the effective branch of `remove_indexed`,
stated over the resolved indices. -/
theorem ginv_remove_aux (terms0 : TermIndexU) (ts : List (Nat × Nat × Nat))
    (si pi oi : Nat) (hwf : WF terms0) (hnd : ts.Nodup)
    (hcons : ∀ j, cnt terms0 j = occ j ts) (hmem : (si, pi, oi) ∈ ts) :
    GInv ⟨dec_ref (dec_ref (dec_ref terms0 si) pi) oi,
      ts.filter (fun tr => tr ≠ (si, pi, oi))⟩ := by
  obtain ⟨hcnt, hwf2⟩ := dec3_cnt terms0 ts si pi oi hwf hcons hmem
  refine ⟨hwf2, hnd.filter _, ?_⟩
  intro j
  show cnt (dec_ref (dec_ref (dec_ref terms0 si) pi) oi) j
    = occ j (ts.filter (fun tr => tr ≠ (si, pi, oi)))
  rw [occ_erase j _ ts hnd hmem, hcnt j, hcons j]

/-- C2 ingredient: `remove_indexed` preserves the store invariant. -/
theorem remove_indexed_preserves (g : HashGraph) (s p o : Term)
    (hg : GInv g) : GInv (remove_indexed g s p o).2 := by
  obtain ⟨hwf, hnd, hcons⟩ := hg
  unfold remove_indexed
  split
  next si pi oi hs hp ho =>
    by_cases hmem : (si, pi, oi) ∈ g.triples
    · rw [if_pos hmem]
      exact ginv_remove_aux g.terms g.triples si pi oi hwf hnd hcons hmem
    · rw [if_neg hmem]
      exact ⟨hwf, hnd, hcons⟩
  all_goals exact ⟨hwf, hnd, hcons⟩

/-- Any store reached from the empty one satisfies the invariant. -/
theorem ginv_run (ops : List Op) : GInv (run ops) := by
  have hstep : ∀ (g : HashGraph) (op : Op), GInv g → GInv (applyOp g op) := by
    intro g op hg
    cases op with
    | ins s p o => exact insert_indexed_preserves g s p o hg
    | rem s p o => exact remove_indexed_preserves g s p o hg
  have : ∀ (l : List Op) (g : HashGraph), GInv g → GInv (l.foldl applyOp g) := by
    intro l
    induction l with
    | nil => exact fun g hg => hg
    | cons op rest ih => exact fun g hg => ih _ (hstep g op hg)
  exact this ops HashGraph.empty ginv_empty

/-- A live `get_term` exposes the underlying slot. -/
theorem live_of_get_term_isSome (d : TermIndexU) (i : Nat)
    (h : (get_term d i).isSome = true) :
    ∃ u, d.i2t[i]? = some (some u) := by
  unfold get_term at h
  cases hv : d.i2t[i]? with
  | none => rw [hv] at h; exact absurd h (by simp)
  | some v =>
    cases v with
    | none => rw [hv] at h; exact absurd h (by simp)
    | some u => exact ⟨u, rfl⟩

/-! ## Claims about the dictionary and the indexed store -/

/-- C2: after any sequence of `insert_indexed` / `remove_indexed`
operations from the empty store, the refcount of every live dictionary
index equals its number of (triple, position) occurrences across the
stored index-triples. -/
theorem refcount_conservation (ops : List Op) (i : Nat)
    (hlive : (get_term (run ops).terms i).isSome = true) :
    cget (run ops).terms.i2c i = occ i (run ops).triples := by
  have hg := ginv_run ops
  have hc := hg.conserve i
  obtain ⟨u, hu⟩ := live_of_get_term_isSome (run ops).terms i hlive
  rwa [cnt_of_live _ i u hu] at hc

/-- Witness for C2: after inserting one triple, index 0 is live and its
refcount equals its occurrence count. -/
theorem refcount_conservation_witness :
    cget (run [Op.ins tC1 tP1 tC2]).terms.i2c 0
      = occ 0 (run [Op.ins tC1 tP1 tC2]).triples :=
  refcount_conservation [Op.ins tC1 tP1 tC2] 0 (by rfl)

/-- C3: `insert_indexed` interns all three positions optimistically; on a
novel index-triple it returns it (with the triple added); on a duplicate
it releases the three just-interned indices, returns `none`, and every
refcount is as before the call. -/
theorem insert_rollback (g : HashGraph) (s p o : Term) (hg : GInv g) :
    ((( (make_index g.terms s).1,
        (make_index (make_index g.terms s).2 p).1,
        (make_index (make_index (make_index g.terms s).2 p).2 o).1)
          ∉ g.triples →
      insert_indexed g s p o
        = (some ((make_index g.terms s).1,
            (make_index (make_index g.terms s).2 p).1,
            (make_index (make_index (make_index g.terms s).2 p).2 o).1),
          ⟨(make_index (make_index (make_index g.terms s).2 p).2 o).2,
            ((make_index g.terms s).1,
              (make_index (make_index g.terms s).2 p).1,
              (make_index (make_index (make_index g.terms s).2 p).2 o).1)
              :: g.triples⟩))) ∧
    ((( (make_index g.terms s).1,
        (make_index (make_index g.terms s).2 p).1,
        (make_index (make_index (make_index g.terms s).2 p).2 o).1)
          ∈ g.triples →
      (insert_indexed g s p o).1 = none ∧
      (insert_indexed g s p o).2.triples = g.triples ∧
      ∀ j, cnt (insert_indexed g s p o).2.terms j = cnt g.terms j)) := by
  obtain ⟨hwf, hnd, hcons⟩ := hg
  have sp1 := make_index_spec g.terms s hwf
  have sp2 := make_index_spec (make_index g.terms s).2 p sp1.wf
  have sp3 := make_index_spec (make_index (make_index g.terms s).2 p).2 o
    sp2.wf
  have h1 := mkspec_cnt _ _ _ _ sp1
  have h2 := mkspec_cnt _ _ _ _ sp2
  have h3 := mkspec_cnt _ _ _ _ sp3
  have hcnt3 : ∀ j,
      cnt (make_index (make_index (make_index g.terms s).2 p).2 o).2 j
        = occ j g.triples
          + occT j ((make_index g.terms s).1,
              (make_index (make_index g.terms s).2 p).1,
              (make_index (make_index (make_index g.terms s).2 p).2 o).1) := by
    intro j
    rw [h3 j, h2 j, h1 j, hcons j]
    simp only [occT]
    split_ifs <;> omega
  constructor
  · intro hmem
    simp [insert_indexed, hmem]
  · intro hmem
    have hconsC : ∀ j,
        cnt (make_index (make_index (make_index g.terms s).2 p).2 o).2 j
          = occ j (((make_index g.terms s).1,
              (make_index (make_index g.terms s).2 p).1,
              (make_index (make_index (make_index g.terms s).2 p).2 o).1)
                :: g.triples) := by
      intro j
      rw [occ_cons, hcnt3 j]
      omega
    obtain ⟨hcnt, -⟩ := dec3_cnt _ _ _ _ _ sp3.wf hconsC
      (List.mem_cons_self _ _)
    refine ⟨by simp [insert_indexed, hmem], by simp [insert_indexed, hmem],
      ?_⟩
    intro j
    have : (insert_indexed g s p o).2.terms
        = dec_ref (dec_ref (dec_ref
            (make_index (make_index (make_index g.terms s).2 p).2 o).2
            (make_index g.terms s).1)
            (make_index (make_index g.terms s).2 p).1)
            (make_index (make_index (make_index g.terms s).2 p).2 o).1 := by
      simp [insert_indexed, hmem]
    rw [this, hcnt j, hcnt3 j, hcons j]
    simp only [occ_cons, occT]
    split_ifs <;> omega

/-- Witness for C3: inserting a fresh triple into the empty store
returns the interned index-triple, and re-inserting it into the resulting
store rolls the refcounts back and returns `none`. -/
theorem insert_rollback_witness :
    ((insert_indexed (run [Op.ins tC1 tP1 tC2]) tC1 tP1 tC2).1 = none ∧
      (insert_indexed (run [Op.ins tC1 tP1 tC2]) tC1 tP1 tC2).2.triples
        = (run [Op.ins tC1 tP1 tC2]).triples ∧
      ∀ j, cnt (insert_indexed (run [Op.ins tC1 tP1 tC2]) tC1 tP1 tC2).2.terms
        j = cnt (run [Op.ins tC1 tP1 tC2]).terms j) :=
  (insert_rollback (run [Op.ins tC1 tP1 tC2]) tC1 tP1 tC2
    (ginv_run [Op.ins tC1 tP1 tC2])).2 (by decide)

/-- C4: `remove_indexed` resolves the positions by read-only lookups; if
any position was never interned it returns `none` with the whole store
unchanged; if all resolve and the index-triple is present it removes it,
releases the three resolved indices and returns the index-triple; if the
index-triple is absent it returns `none` with the store unchanged. -/
theorem remove_readonly (g : HashGraph) (s p o : Term) (hg : GInv g) :
    ((get_index g.terms s = none ∨ get_index g.terms p = none ∨
      get_index g.terms o = none) → remove_indexed g s p o = (none, g)) ∧
    (∀ si pi oi, get_index g.terms s = some si →
      get_index g.terms p = some pi → get_index g.terms o = some oi →
      (((si, pi, oi) ∈ g.triples →
        remove_indexed g s p o
          = (some (si, pi, oi),
            ⟨dec_ref (dec_ref (dec_ref g.terms si) pi) oi,
              g.triples.filter (fun tr => tr ≠ (si, pi, oi))⟩) ∧
        ∀ j, cnt (remove_indexed g s p o).2.terms j
          = cnt g.terms j - occT j (si, pi, oi)) ∧
      ((si, pi, oi) ∉ g.triples → remove_indexed g s p o = (none, g)))) := by
  constructor
  · rintro (hs | hp | ho)
    · cases hp : get_index g.terms p <;> cases ho : get_index g.terms o <;>
        simp [remove_indexed, hs, hp, ho]
    · cases hs : get_index g.terms s <;> cases ho : get_index g.terms o <;>
        simp [remove_indexed, hs, hp, ho]
    · cases hs : get_index g.terms s <;> cases hp : get_index g.terms p <;>
        simp [remove_indexed, hs, hp, ho]
  · intro si pi oi hs hp ho
    constructor
    · intro hmem
      have he : remove_indexed g s p o
          = (some (si, pi, oi),
            ⟨dec_ref (dec_ref (dec_ref g.terms si) pi) oi,
              g.triples.filter (fun tr => tr ≠ (si, pi, oi))⟩) := by
        simp [remove_indexed, hs, hp, ho, hmem]
      obtain ⟨hcnt, -⟩ :=
        dec3_cnt g.terms g.triples si pi oi hg.wf hg.conserve hmem
      refine ⟨he, ?_⟩
      intro j
      rw [he]
      exact hcnt j
    · intro hmem
      simp [remove_indexed, hs, hp, ho, hmem]

/-- Witness for C4: removing the one triple of a one-triple store yields
its index-triple and lowers each refcount by the right multiplicity. -/
theorem remove_readonly_witness :
    (remove_indexed (run [Op.ins tC1 tP1 tC2]) tC1 tP1 tC2
      = (some (0, 1, 2),
        ⟨dec_ref (dec_ref (dec_ref (run [Op.ins tC1 tP1 tC2]).terms 0) 1) 2,
          (run [Op.ins tC1 tP1 tC2]).triples.filter
            (fun tr => tr ≠ (0, 1, 2))⟩) ∧
    ∀ j, cnt (remove_indexed (run [Op.ins tC1 tP1 tC2]) tC1 tP1 tC2).2.terms
        j = cnt (run [Op.ins tC1 tP1 tC2]).terms j - occT j (0, 1, 2)) :=
  ((remove_readonly (run [Op.ins tC1 tP1 tC2]) tC1 tP1 tC2
    (ginv_run [Op.ins tC1 tP1 tC2])).2 0 1 2 (by rfl) (by rfl) (by rfl)).1
    (by decide)

/-- C10: `make_index` always returns an in-range index whose `get_term`
round-trips to the interned term. -/
theorem make_index_roundtrip (d : TermIndexU) (t : Term) (hwf : WF d) :
    get_term (make_index d t).2 (make_index d t).1 = some t ∧
    (make_index d t).1 < (make_index d t).2.i2t.length := by
  have sp := make_index_spec d t hwf
  refine ⟨?_, live_lt_length _ _ t sp.ret_live⟩
  unfold get_term
  rw [sp.ret_live]
  rfl

/-- Witness for C10: interning into the empty dictionary. -/
theorem make_index_roundtrip_witness :
    get_term (make_index TermIndexU.empty tC1).2
        (make_index TermIndexU.empty tC1).1 = some tC1 ∧
    (make_index TermIndexU.empty tC1).1
      < (make_index TermIndexU.empty tC1).2.i2t.length :=
  make_index_roundtrip TermIndexU.empty tC1 wf_empty

/-- Number of live forward-array entries of a dictionary. -/
def liveCount (d : TermIndexU) : Nat :=
  (d.i2t.filter Option.isSome).length

/-- Counterexample to C5 as frozen: starting from the reachable state in
which `tC1` is already interned once (refcount 1), interning it twice
more returns the same index both times, but the refcount afterwards is 3,
not 2 — "for every dictionary state" fails. -/
theorem intern_dedup_cex :
    ((make_index (make_index (make_index TermIndexU.empty tC1).2 tC1).2
      tC1).1 = (make_index (make_index TermIndexU.empty tC1).2 tC1).1) ∧
    cget (make_index (make_index (make_index TermIndexU.empty tC1).2
      tC1).2 tC1).2.i2c 0 = 3 ∧
    ¬ cget (make_index (make_index (make_index TermIndexU.empty tC1).2
      tC1).2 tC1).2.i2c 0 = 2 := by decide

/-- C5 (amended): on a well-formed dictionary in which `t` is not yet
interned, two `make_index t` calls return the same index, leave its
refcount at 2, and the second call changes neither the number of live
forward entries nor the reverse-map size. -/
theorem intern_dedup_amended (d : TermIndexU) (t : Term) (hwf : WF d)
    (hfresh : get_index d t = none) :
    (make_index (make_index d t).2 t).1 = (make_index d t).1 ∧
    cget (make_index (make_index d t).2 t).2.i2c (make_index d t).1 = 2 ∧
    liveCount (make_index (make_index d t).2 t).2
      = liveCount (make_index d t).2 ∧
    (make_index (make_index d t).2 t).2.t2i.length
      = (make_index d t).2.t2i.length := by
  have sp1 := make_index_spec d t hwf
  obtain ⟨-, hcnt0⟩ := make_index_fresh d t hwf hfresh
  obtain ⟨hret, hi2t, ht2i, -, -⟩ :=
    make_index_existing (make_index d t).2 t (make_index d t).1 sp1.gi_self
  have hcnt1 : cnt (make_index d t).2 (make_index d t).1 = 1 := by
    rw [sp1.cnt_self, hcnt0]
  have sp2 := make_index_spec (make_index d t).2 t sp1.wf
  have hcnt2 : cnt (make_index (make_index d t).2 t).2 (make_index d t).1
      = 2 := by
    have hself := sp2.cnt_self
    rw [hret] at hself
    rw [hself, hcnt1]
  have hlive2 : (make_index (make_index d t).2 t).2.i2t[(make_index d t).1]?
      = some (some t) := hret ▸ sp2.ret_live
  refine ⟨hret, ?_, ?_, ?_⟩
  · rw [← cnt_of_live _ _ t hlive2]
    exact hcnt2
  · unfold liveCount
    rw [hi2t]
  · rw [ht2i]

/-- Witness for C5: the amended claim evaluated on the empty dictionary. -/
theorem intern_dedup_amended_witness :
    (make_index (make_index TermIndexU.empty tC1).2 tC1).1
      = (make_index TermIndexU.empty tC1).1 ∧
    cget (make_index (make_index TermIndexU.empty tC1).2 tC1).2.i2c
      (make_index TermIndexU.empty tC1).1 = 2 ∧
    liveCount (make_index (make_index TermIndexU.empty tC1).2 tC1).2
      = liveCount (make_index TermIndexU.empty tC1).2 ∧
    (make_index (make_index TermIndexU.empty tC1).2 tC1).2.t2i.length
      = (make_index TermIndexU.empty tC1).2.t2i.length :=
  intern_dedup_amended TermIndexU.empty tC1 wf_empty (by rfl)

/-- The removed key is no longer found. -/
theorem alookup_aremove_self (m : List (Term × Nat)) (t : Term) :
    alookup (aremove m t) t = none :=
  (alookup_eq_none _ _).mpr (fun i hi => ((mem_aremove m t t i).mp hi).2 rfl)

/-- Counterexample to C6 as frozen: with `tC1` at slot 0 (refcount 1) and
`tC2` at slot 1, freeing slot 0 and then interning the different term
`tC2` does not reuse the freed index — it returns the existing index 1. -/
theorem slot_reuse_cex :
    (make_index (dec_ref (make_index (make_index TermIndexU.empty tC1).2
      tC2).2 0) tC2).1 ≠ 0 ∧
    (make_index (dec_ref (make_index (make_index TermIndexU.empty tC1).2
      tC2).2 0) tC2).1 = 1 := by decide

/-- C6 (amended): releasing a live index with refcount 1 removes its
reverse-map entry, frees the slot and pushes it LIFO onto the free list;
a subsequent `make_index` of a different term that is not currently
interned reuses that index, after which `get_term` yields only the new
term and the old term is no longer found. -/
theorem slot_reuse_amended (d : TermIndexU) (i : Nat) (t t' : Term)
    (hwf : WF d) (hlive : d.i2t[i]? = some (some t))
    (hc : cget d.i2c i = 1) (hne : t' ≠ t)
    (hfresh : get_index d t' = none) :
    get_index (dec_ref d i) t = none ∧
    get_term (dec_ref d i) i = none ∧
    (dec_ref d i).next_free = i ∧
    cget (dec_ref d i).i2c i = d.next_free ∧
    (make_index (dec_ref d i) t').1 = i ∧
    get_term (make_index (dec_ref d i) t').2 i = some t' ∧
    get_index (make_index (dec_ref d i) t').2 t = none := by
  have hilen : i < d.i2t.length := live_lt_length d i t hlive
  have hiclen : i < d.i2c.length := hwf.len_eq ▸ hilen
  have ds := dec_ref_spec d i t hwf hlive (by omega)
  have heq := dec_ref_to_zero d i t hlive hc
  have h1 : get_index (dec_ref d i) t = none := by
    rw [heq]
    exact alookup_aremove_self d.t2i t
  have h2 : get_term (dec_ref d i) i = none := by
    rw [heq]
    unfold get_term
    rw [List.getElem?_set_self hilen]
    rfl
  have h3 : (dec_ref d i).next_free = i := by rw [heq]
  have h4 : cget (dec_ref d i).i2c i = d.next_free := by
    rw [heq]
    exact cget_set_self d.i2c i _ hiclen
  have hfresh' : get_index (dec_ref d i) t' = none := by
    rw [ds.gi_other t' hne]
    exact hfresh
  obtain ⟨hret, -⟩ := make_index_fresh (dec_ref d i) t' ds.wf hfresh'
  have hret' : (make_index (dec_ref d i) t').1 = i := by rw [hret, h3]
  have sp := make_index_spec (dec_ref d i) t' ds.wf
  have h6 : get_term (make_index (dec_ref d i) t').2 i = some t' := by
    have hrl := sp.ret_live
    rw [hret'] at hrl
    unfold get_term
    rw [hrl]
    rfl
  have h7 : get_index (make_index (dec_ref d i) t').2 t = none := by
    rw [sp.gi_other t (fun he => hne he.symm)]
    exact h1
  exact ⟨h1, h2, h3, h4, hret', h6, h7⟩

/-- Witness for C6: free `tC1`'s slot 0 in a two-term dictionary, then
intern the fresh term `tP1`, which reuses slot 0. -/
theorem slot_reuse_amended_witness :
    get_index (dec_ref (make_index (make_index TermIndexU.empty tC1).2
      tC2).2 0) tC1 = none ∧
    get_term (dec_ref (make_index (make_index TermIndexU.empty tC1).2
      tC2).2 0) 0 = none ∧
    (dec_ref (make_index (make_index TermIndexU.empty tC1).2 tC2).2
      0).next_free = 0 ∧
    cget (dec_ref (make_index (make_index TermIndexU.empty tC1).2 tC2).2
      0).i2c 0
      = (make_index (make_index TermIndexU.empty tC1).2 tC2).2.next_free ∧
    (make_index (dec_ref (make_index (make_index TermIndexU.empty tC1).2
      tC2).2 0) tP1).1 = 0 ∧
    get_term (make_index (dec_ref (make_index
      (make_index TermIndexU.empty tC1).2 tC2).2 0) tP1).2 0 = some tP1 ∧
    get_index (make_index (dec_ref (make_index
      (make_index TermIndexU.empty tC1).2 tC2).2 0) tP1).2 tC1 = none :=
  slot_reuse_amended (make_index (make_index TermIndexU.empty tC1).2
      tC2).2 0 tC1 tP1
    (make_index_spec (make_index TermIndexU.empty tC1).2 tC2
      (make_index_spec TermIndexU.empty tC1 wf_empty).wf).wf
    (by rfl) (by rfl) (by decide) (by rfl)

end Sophia
